import Mathlib

/-!
Verification development for the log correlation and normalization engine of
the soc-ml-poc repository.

The Go source is shallowly embedded:
* `time.Time` / `time.Duration` values are `Int` nanoseconds (Go stores both
  as integer nanosecond counts and compares them exactly).  `time.Time.Sub`
  saturates at `±2^63` and int64 negation wraps on `MinInt64`; both are
  modelled (`goSubTime`, `goNegInt64`) where the score computation observes
  them.  The grouping pass subtracts sorted, hence nonnegative, differences,
  where saturation to `maxDuration` changes no comparison against a window
  below `maxDuration` (the engine uses 5 minutes).
* `float64` scores are modelled as `ℚ`; every score in the engine is a sum of
  small decimal literals compared and capped exactly as written in the source.
* Go maps keyed by strings are modelled as association lists kept in
  insertion order.  Go's map iteration order is unspecified, so every theorem
  below is stated in terms of membership, never of output order.
* fallible operations return `Option`.
-/

/-- A JSON value as produced by `encoding/json.Unmarshal` into
`map[string]interface{}`: strings, numbers (`float64`), JSON `null` (a nil
interface), and a collapsed constructor for the remaining shapes (bools,
arrays, nested objects), which the source's `toString` helper sends to `""`
just like any other non-string non-number value. -/
inductive JVal where
  | jstr (s : String)
  | jnum (q : ℚ)
  | jnull
  | jother
deriving DecidableEq, Repr

/-- A parsed JSON object (`map[string]interface{}`), insertion ordered.
JSON objects never carry duplicate keys after `Unmarshal`. -/
abbrev JObj := List (String × JVal)

/-- Embedding of the source's `NormalizedLog` struct (normalizer file).
Defaults are the Go zero values. -/
structure NormalizedLog where
  OriginalLog : String := ""
  Source : String := ""
  Timestamp : Int := 0
  IPAddresses : List String := []
  UserEmails : List String := []
  UserNames : List String := []
  Action : String := ""
  Severity : String := ""
  CompanyCode : String := ""
  Host : String := ""
  URI : String := ""
  Method : String := ""
  StatusCode : String := ""
  Country : String := ""
  RawData : JObj := []
deriving DecidableEq, Repr

/-- Embedding of the source's `UserCorrelation` struct
(`src/server/correlation.go`). -/
structure UserCorrelation where
  UserIdentifier : String := ""
  IPAddress : String := ""
  FirstSeen : Int := 0
  LastSeen : Int := 0
  ConfidenceScore : ℚ := 0
  SourceSystems : List String := []
  CorrelationType : String := ""
deriving DecidableEq, Repr

/-- Embedding of `LokiLog` (only the fields `NormalizeLog` reads). -/
structure LokiLog where
  Line : String := ""
  Timestamp : Int := 0
deriving DecidableEq, Repr

/-! ## Field extractor: the two compiled regular expressions

`emailRegex`: the character classes of the pattern
a run of `[a-zA-Z0-9._%+-]`, an `@`, a run of `[a-zA-Z0-9.-]`, a dot and at
least two letters.  `ipRegex`: a dotted quad of 1-3 digit groups between
word boundaries.  Both scanners below implement Go's (RE2, Perl-preference)
leftmost-first semantics for exactly these two patterns:
greedy sub-runs with backtracking preference, matches enumerated left to
right and non-overlapping (`FindAllString`). -/

/-- `[0-9]` -/
def isDigitChar (c : Char) : Bool := decide ('0' ≤ c ∧ c ≤ '9')

/-- `[a-zA-Z]` -/
def isAlphaChar (c : Char) : Bool :=
  decide ('a' ≤ c ∧ c ≤ 'z') || decide ('A' ≤ c ∧ c ≤ 'Z')

/-- `[a-zA-Z0-9._%+-]`, the local part of `emailRegex`. -/
def isLocalChar (c : Char) : Bool :=
  isAlphaChar c || isDigitChar c || c == '.' || c == '_' || c == '%' ||
    c == '+' || c == '-'

/-- `[a-zA-Z0-9.-]`, the domain part of `emailRegex`. -/
def isDomainChar (c : Char) : Bool :=
  isAlphaChar c || isDigitChar c || c == '.' || c == '-'

/-- `\w`, the class deciding the `\b` anchors of `ipRegex`. -/
def isWordChar (c : Char) : Bool := isAlphaChar c || isDigitChar c || c == '_'

/-- Length of the longest prefix of `l` satisfying `p`. -/
def runLen (p : Char → Bool) (l : List Char) : Nat := (l.takeWhile p).length

/-- Try to finish an email-domain match with the `\.[a-zA-Z]{2,}` suffix when
the greedy `[a-zA-Z0-9.-]+` part has been cut back to length `dlen`. -/
def emailTldLen (t : List Char) (dlen : Nat) : Option Nat :=
  match t.drop dlen with
  | '.' :: rest =>
      let a := runLen isAlphaChar rest
      if 2 ≤ a then some (dlen + 1 + a) else none
  | _ => none

/-- Backtracking over the length of the `[a-zA-Z0-9.-]+` run, longest
candidate first, as a leftmost-first engine prefers. -/
def emailDomainLen (t : List Char) : Nat → Option Nat
  | 0 => none
  | d + 1 =>
      match emailTldLen t (d + 1) with
      | some n => some n
      | none => emailDomainLen t d

/-- Length of the `emailRegex` match starting at the head of `s`, if any.
`@` is not a local-class character, so the greedy local run never needs to
backtrack. -/
def emailMatchLen (s : List Char) : Option Nat :=
  let k := runLen isLocalChar s
  if k = 0 then none
  else
    match s.drop k with
    | '@' :: rest =>
        match emailDomainLen rest (runLen isDomainChar rest) with
        | some d => some (k + 1 + d)
        | none => none
    | _ => none

/-- `FindAllString` for `emailRegex`: successive non-overlapping leftmost
matches.  `fuel` starts at the text length; every step consumes at least one
character (matches are nonempty). -/
def emailScan : Nat → List Char → List (List Char)
  | 0, _ => []
  | _, [] => []
  | fuel + 1, s@(_ :: rest) =>
      match emailMatchLen s with
      | some n => s.take n :: emailScan fuel (s.drop n)
      | none => emailScan fuel rest

/-- All `emailRegex` matches of a text, in order. -/
def emailMatches (text : String) : List String :=
  (emailScan text.data.length text.data).map (fun l => String.mk l)

/-- One `[0-9]{1,3}\.` group of `ipRegex`.  A digit run longer than 3 can
never be cut back to meet the following `\.`, since the character after a
shorter cut is still a digit. -/
def ipGroupLen (s : List Char) : Option Nat :=
  let r := runLen isDigitChar s
  if 1 ≤ r ∧ r ≤ 3 then
    match s.drop r with
    | '.' :: _ => some (r + 1)
    | _ => none
  else none

/-- The final `[0-9]{1,3}\b` of `ipRegex`: 1-3 digits followed by the end of
the text or a non-word character. -/
def ipTailLen (s : List Char) : Option Nat :=
  let r := runLen isDigitChar s
  if 1 ≤ r ∧ r ≤ 3 then
    match s.drop r with
    | [] => some r
    | c :: _ => if isWordChar c then none else some r
  else none

/-- Length of the `ipRegex` match starting at the head of `s`; `prev` is the
character immediately before that position (`none` at the start of the text)
and decides the leading `\b`. -/
def ipMatchLen (prev : Option Char) (s : List Char) : Option Nat :=
  let boundaryOk : Bool := match prev with
    | none => true
    | some c => !(isWordChar c)
  if boundaryOk then
    match ipGroupLen s with
    | some n1 =>
        match ipGroupLen (s.drop n1) with
        | some n2 =>
            match ipGroupLen (s.drop (n1 + n2)) with
            | some n3 =>
                match ipTailLen (s.drop (n1 + n2 + n3)) with
                | some n4 => some (n1 + n2 + n3 + n4)
                | none => none
            | none => none
        | none => none
    | none => none
  else none

/-- `FindAllString` for `ipRegex`, threading the previous character for the
word-boundary anchor. -/
def ipScan : Option Char → Nat → List Char → List (List Char)
  | _, 0, _ => []
  | _, _, [] => []
  | prev, fuel + 1, s@(c :: rest) =>
      match ipMatchLen prev s with
      | some n => s.take n :: ipScan (s.take n).getLast? fuel (s.drop n)
      | none => ipScan (some c) fuel rest

/-- All `ipRegex` matches of a text, in order. -/
def ipMatches (text : String) : List String :=
  (ipScan none text.data.length text.data).map (fun l => String.mk l)

/-- `strings.Split` on a single-character separator. -/
def splitOnChar (sep : Char) : List Char → List (List Char)
  | [] => [[]]
  | c :: rest =>
      if c == sep then [] :: splitOnChar sep rest
      else
        match splitOnChar sep rest with
        | [] => [[c]]
        | h :: t => (c :: h) :: t

/-- Decimal value of a digit run. -/
def digitsVal (l : List Char) : Nat :=
  l.foldl (fun n c => n * 10 + (c.toNat - 48)) 0

/-- One dotted-decimal field as `net.ParseIP` accepts it: nonempty, all
digits, at most 3 of them, no leading zero (Go rejects leading zeros in
dotted-decimal addresses), value at most 255. -/
def validOctet (l : List Char) : Bool :=
  decide (l ≠ []) && l.all isDigitChar && decide (l.length ≤ 3) &&
    !(decide (1 < l.length) && (l.head? == some '0')) &&
    decide (digitsVal l ≤ 255)

/-- The IPv4 dotted-decimal acceptance of `net.ParseIP`: exactly four valid
fields.  `net.ParseIP` additionally parses IPv6 literals (first `:` before
any `.`); that branch is not modelled — every address whose validity matters
to a theorem below is a dotted-quad `ipRegex` match (digits and dots only),
on which the two parsers coincide, and the only other call site
(`extractFromJSON`) feeds a field whose additions `NormalizeLog` discards
wholesale (claim C10). -/
def parseIPv4 (s : String) : Option (Nat × Nat × Nat × Nat) :=
  match splitOnChar '.' s.data with
  | [a, b, c, d] =>
      if validOctet a && validOctet b && validOctet c && validOctet d then
        some (digitsVal a, digitsVal b, digitsVal c, digitsVal d)
      else none
  | _ => none

/-- Embedding of `isValidIP`: parses and is neither loopback (IPv4
`127.0.0.0/8`) nor unspecified (`0.0.0.0`). -/
def isValidIP (s : String) : Bool :=
  match parseIPv4 s with
  | some (a, b, c, d) =>
      !(a == 127) && !(a == 0 && b == 0 && c == 0 && d == 0)
  | none => false

/-- `strings.ToLower`; the matches it is applied to consist solely of ASCII
characters from the email pattern's classes, where Go's Unicode lowering and
`Char.toLower` agree. -/
def lowerStr (s : String) : String := String.mk (s.data.map Char.toLower)

/-- Embedding of `extractIPs`: every regex match that passes `isValidIP` and
was not seen before is appended; the pair carries (result so far, seen set),
exactly the two variables of the Go loop. -/
def extractIPs (text : String) : List String :=
  ((ipMatches text).foldl
    (fun acc m =>
      if isValidIP m && decide (m ∉ acc.2) then (acc.1 ++ [m], acc.2 ++ [m])
      else acc)
    (([] : List String), ([] : List String))).1

/-- Embedding of `extractEmails`: deduplication is keyed on the raw match
(`seen[match]`), while the appended element is the lowercased match. -/
def extractEmails (text : String) : List String :=
  ((emailMatches text).foldl
    (fun acc m =>
      if decide (m ∉ acc.2) then (acc.1 ++ [lowerStr m], acc.2 ++ [m])
      else acc)
    (([] : List String), ([] : List String))).1

/-! ## Log normalizer -/

/-- Go's `string(rune(int(num)))` as used by the source's `toString` helper on
`float64` JSON numbers: the float is truncated toward zero, converted to a
rune (out-of-range and surrogate code points become U+FFFD) and rendered as a
one-character string. -/
def goRuneToString (n : Int) : String :=
  if 0 ≤ n ∧ n < 1114112 ∧ ¬(55296 ≤ n ∧ n ≤ 57343) then
    String.mk [Char.ofNat n.toNat]
  else String.mk [Char.ofNat 65533]

/-- Embedding of the source's `toString` helper: strings pass through,
`float64` numbers go through the rune conversion (`q.num / q.den` is Lean's
toward-zero integer division, matching Go's `int(float64)`), everything else
becomes the empty string. -/
def goToString : JVal → String
  | JVal.jstr s => s
  | JVal.jnum q => goRuneToString (q.num / (q.den : Int))
  | JVal.jnull => ""
  | JVal.jother => ""

/-- First-key-wins map lookup (`data[key]`). -/
def jlookup (data : JObj) (k : String) : Option JVal :=
  match data.find? (fun p => p.1 == k) with
  | some p => some p.2
  | none => none

/-- The `fieldMappings` candidate scan: the first candidate key present with
a non-nil value wins; a present-but-null key fails the `exists && value !=
nil` test and the scan moves on. -/
def firstKeyValue (data : JObj) : List String → Option JVal
  | [] => none
  | k :: rest =>
      match jlookup data k with
      | some v => if v = JVal.jnull then firstKeyValue data rest else some v
      | none => firstKeyValue data rest

/-- The whitespace set of `strings.TrimSpace` restricted to the code points
it recognizes below U+0100 (`'\t'`, `'\n'`, `'\v'`, `'\f'`, `'\r'`, `' '`,
U+0085, U+00A0). -/
def isGoSpace (c : Char) : Bool :=
  c == ' ' || c == '\t' || c == '\n' || c == '\x0b' || c == '\x0c' ||
    c == '\r' || c == '\x85' || c == '\xa0'

/-- `strings.TrimSpace`. -/
def trimSpace (l : List Char) : List Char :=
  ((l.dropWhile isGoSpace).reverse.dropWhile isGoSpace).reverse

def isPrefixList : List Char → List Char → Bool
  | [], _ => true
  | _ :: _, [] => false
  | a :: as, b :: bs => a == b && isPrefixList as bs

/-- `strings.Contains`. -/
def containsSub (s pat : List Char) : Bool :=
  (List.range (s.length + 1)).any (fun i => isPrefixList pat (s.drop i))

def containsStr (s pat : String) : Bool := containsSub s.data pat.data

/-- `strings.Split` on a (nonempty) multi-character separator; splits at every
non-overlapping occurrence, left to right. -/
def splitOnSubAux (sep : List Char) : Nat → List Char → List Char → List (List Char)
  | 0, acc, _ => [acc.reverse]
  | _, acc, [] => [acc.reverse]
  | fuel + 1, acc, s@(c :: rest) =>
      if isPrefixList sep s then
        acc.reverse :: splitOnSubAux sep fuel [] (s.drop sep.length)
      else splitOnSubAux sep fuel (c :: acc) rest

def splitOnSub (sep s : List Char) : List (List Char) :=
  if sep = [] then [s] else splitOnSubAux sep s.length [] s

/-- Embedding of `extractFromJSON`.  The Go loop ranges over the
`fieldMappings` map in unspecified order; each semantic field writes a
distinct struct field, so the iterations are independent and a fixed order
is observationally identical.  The `"timestamp"` mapping has no case in the
`switch` and is a no-op.  The two IP loops append to `IPAddresses`. -/
def extractFromJSON (n : NormalizedLog) (data : JObj) : NormalizedLog :=
  let n := match firstKeyValue data ["company_code", "companyCode"] with
    | some v => { n with CompanyCode := goToString v }
    | none => n
  let n := match firstKeyValue data ["action", "terminatingRuleType", "operationName"] with
    | some v => { n with Action := goToString v }
    | none => n
  let n := match firstKeyValue data ["severity", "Importance"] with
    | some v => { n with Severity := goToString v }
    | none => n
  let n := match firstKeyValue data ["host", "reqHost", "Host", "Company_host"] with
    | some v => { n with Host := goToString v }
    | none => n
  let n := match firstKeyValue data ["uri", "requestUri", "reqPath"] with
    | some v => { n with URI := goToString v }
    | none => n
  let n := match firstKeyValue data ["httpMethod", "reqMethod"] with
    | some v => { n with Method := goToString v }
    | none => n
  let n := match firstKeyValue data ["statusCode", "status"] with
    | some v => { n with StatusCode := goToString v }
    | none => n
  let n := match firstKeyValue data ["country", "client_country_name", "client_country_code"] with
    | some v => { n with Country := goToString v }
    | none => n
  let directIP := fun (n : NormalizedLog) (field : String) =>
    match jlookup data field with
    | some v =>
        let ip := goToString v
        if isValidIP ip then { n with IPAddresses := n.IPAddresses ++ [ip] } else n
    | none => n
  let n := directIP n "clientIP"
  let n := directIP n "cliIP"
  let n := directIP n "client_ip"
  let n := directIP n "clientIp"
  let fwdIP := fun (n : NormalizedLog) (field : String) =>
    match jlookup data field with
    | some v =>
        (splitOnChar ',' (goToString v).data).foldl
          (fun n part =>
            let ip := String.mk (trimSpace part)
            if isValidIP ip then { n with IPAddresses := n.IPAddresses ++ [ip] } else n)
          n
    | none => n
  let n := fwdIP n "xForwardedFor"
  let n := fwdIP n "x-forwarded-for"
  n

/-- Embedding of `extractFromText` (text mode): keys off the substring
`"Deep Security"`, then best-effort extraction of the host between the label
`"Host:"` and the following comma (`strings.Index` must be strictly
positive for the slice to be taken). -/
def extractFromText (n : NormalizedLog) (logLine : String) : NormalizedLog :=
  if containsStr logLine "Deep Security" then
    let n := { n with Source := "deep_security" }
    if containsStr logLine "Host:" then
      match (splitOnSub "Host:".data logLine.data).get? 1 with
      | some part1 =>
          let hostPart := trimSpace part1
          match hostPart.findIdx? (fun c => c == ',') with
          | some hostEnd =>
              if 0 < hostEnd then { n with Host := String.mk (hostPart.take hostEnd) }
              else n
          | none => n
      | none => n
    else n
  else n

/-- Embedding of `determineSource`.  `data = none` stands for a failed
`json.Unmarshal` (the Go `logData` map stays nil and every key lookup is
skipped). -/
def determineSource (logLine : String) (data : Option JObj) : String :=
  let fromJSON : Option String := match data with
    | none => none
    | some d =>
        if (jlookup d "webaclId").isSome then some "aws_waf"
        else if (jlookup d "operationName").isSome &&
            containsStr (goToString ((jlookup d "operationName").getD JVal.jnull)) "Microsoft.Cdn" then
          some "azure_waf"
        else if (jlookup d "streamId").isSome then some "akamai_waf"
        else if (jlookup d "Rule_name").isSome then some "deep_security"
        else if (jlookup d "type").isSome &&
            containsStr (goToString ((jlookup d "type").getD JVal.jnull)) "guardduty" then
          some "aws_guardduty"
        else none
  match fromJSON with
  | some s => s
  | none =>
      if containsStr logLine "Deep Security" then "deep_security"
      else if containsStr logLine "GuardDuty" then "aws_guardduty"
      else if containsStr logLine "Akamai" then "akamai_waf"
      else "unknown"

/-- Embedding of `NormalizeLog`.  `parsed` stands for the result of
`json.Unmarshal(lokiLog.Line)`: `none` on a parse error (text mode),
`some data` on success.  The embedding exposes the source's field order:
the structured/text extraction runs first, and the whole-line
`extractIPs`/`extractEmails` results are then ASSIGNED (not appended) to
the address and identity fields, discarding whatever the structured scan
collected.  `NormalizeLog` never returns an error in the source; the
embedding is total accordingly. -/
def NormalizeLog (lokiLog : LokiLog) (parsed : Option JObj) : NormalizedLog :=
  let normalized : NormalizedLog :=
    { OriginalLog := lokiLog.Line
      Timestamp := lokiLog.Timestamp
      RawData := parsed.getD [] }
  let normalized := match parsed with
    | some data => extractFromJSON normalized data
    | none => extractFromText normalized lokiLog.Line
  let normalized := { normalized with
    IPAddresses := extractIPs lokiLog.Line
    UserEmails := extractEmails lokiLog.Line }
  { normalized with Source := determineSource lokiLog.Line parsed }

/-! ## Correlation engine (`src/server/correlation.go`) -/

/-- `time.Minute` in nanoseconds. -/
def minuteNs : Int := 60000000000

/-- The Go map key `correlation.UserIdentifier + "|" + correlation.IPAddress`
used by both deduplication and merging. -/
def corrKey (c : UserCorrelation) : String :=
  c.UserIdentifier ++ "|" ++ c.IPAddress

/-- First-match lookup in an insertion-ordered association list standing for
a Go `map[string]UserCorrelation`. -/
def lookupKey (k : String) : List (String × UserCorrelation) → Option UserCorrelation
  | [] => none
  | (k', v) :: rest => if k' = k then some v else lookupKey k rest

/-- In-place update of the entry at key `k` (appends when absent), the
assignment `m[k] = v` of a Go map. -/
def setKey (k : String) (v : UserCorrelation) : List (String × UserCorrelation) → List (String × UserCorrelation)
  | [] => [(k, v)]
  | (k', v') :: rest =>
      if k' = k then (k, v) :: rest else (k', v') :: setKey k v rest

/-- One step of `deduplicateCorrelations`: keep the existing entry unless the
incoming one has strictly higher confidence. -/
def insertDedup (m : List (String × UserCorrelation)) (c : UserCorrelation) : List (String × UserCorrelation) :=
  match lookupKey (corrKey c) m with
  | some existing =>
      if c.ConfidenceScore > existing.ConfidenceScore then setKey (corrKey c) c m
      else m
  | none => m ++ [(corrKey c, c)]

/-- Embedding of `deduplicateCorrelations`; the Go function returns the map's
values in unspecified order, modelled here in insertion order. -/
def deduplicateCorrelations (correlations : List UserCorrelation) : List UserCorrelation :=
  (correlations.foldl insertDedup []).map Prod.snd

/-- Embedding of `mergeSources`: set union of the two source lists (Go
builds a `map[string]bool` and returns its keys; modelled in first—insertion
order). -/
def addUnique (acc : List String) (l : List String) : List String :=
  l.foldl (fun a s => if s ∈ a then a else a ++ [s]) acc

def mergeSources (sources1 sources2 : List String) : List String :=
  addUnique (addUnique [] sources1) sources2

/-- One step of the new-correlation loop of `mergeCorrelations`: on a key
collision the kept (historical) entry's confidence is raised to the maximum
and its source list replaced by the merged one; its other fields are kept. -/
def insertMerge (m : List (String × UserCorrelation)) (c : UserCorrelation) : List (String × UserCorrelation) :=
  match lookupKey (corrKey c) m with
  | some existing =>
      let existing :=
        if c.ConfidenceScore > existing.ConfidenceScore then
          { existing with ConfidenceScore := c.ConfidenceScore }
        else existing
      let existing :=
        { existing with SourceSystems := mergeSources existing.SourceSystems c.SourceSystems }
      setKey (corrKey c) existing m
  | none => m ++ [(corrKey c, c)]

/-- Embedding of `mergeCorrelations new existing`: existing (historical)
correlations are loaded into the map first, then the new ones are merged in. -/
def mergeCorrelations (newCorrs existingCorrs : List UserCorrelation) : List UserCorrelation :=
  let m := existingCorrs.foldl (fun m c => setKey (corrKey c) c m) []
  let m := newCorrs.foldl insertMerge m
  m.map Prod.snd

/-- One adjacent-swap sweep of the source's bubble sort, carrying the
current left element (`Timestamp.After` compares strictly, so equal
timestamps never swap: the sort is stable). -/
def bubblePassAux (a : NormalizedLog) : List NormalizedLog → List NormalizedLog
  | [] => [a]
  | b :: rest =>
      if b.Timestamp < a.Timestamp then b :: bubblePassAux a rest
      else a :: bubblePassAux b rest

/-- One adjacent-swap sweep of the source's bubble sort. -/
def bubblePass : List NormalizedLog → List NormalizedLog
  | [] => []
  | a :: rest => bubblePassAux a rest

def bubbleAux : Nat → List NormalizedLog → List NormalizedLog
  | 0, l => l
  | n + 1, l => bubbleAux n (bubblePass l)

/-- The source's index-based bubble sort.  The Go inner loop shrinks its
bound by `i`, skipping a suffix that is already sorted and maximal; a full
sweep leaves that suffix unchanged, so `len - 1` full sweeps compute the
same list. -/
def bubbleSort (logs : List NormalizedLog) : List NormalizedLog :=
  bubbleAux (logs.length - 1) logs

/-- The greedy left-to-right pass of `groupLogsByTime`: a record joins the
current group when its distance to the group's first (anchor) timestamp is
at most `window`, and otherwise closes the group and anchors a new one. -/
def groupPass (window groupStart : Int) (currentGroup : List NormalizedLog) : List NormalizedLog → List (List NormalizedLog)
  | [] => [currentGroup]
  | l :: rest =>
      if l.Timestamp - groupStart ≤ window then
        groupPass window groupStart (currentGroup ++ [l]) rest
      else currentGroup :: groupPass window l.Timestamp [l] rest

/-- Embedding of `groupLogsByTime`: sort ascending by timestamp, then the
greedy anchor-based pass.  The Go function returns `nil` for no input; the
final `if len(currentGroup) > 0` append always fires since the running group
is never empty.  The join test subtracts with `Timestamp.Sub`; on the sorted
sequence the difference is nonnegative, and its saturation at `maxDuration`
decides identically against any window below `maxDuration` (the engine
passes 5 minutes), so the subtraction is modelled unbounded here. -/
def groupLogsByTime (logs : List NormalizedLog) (window : Int) : List (List NormalizedLog) :=
  match bubbleSort logs with
  | [] => []
  | first :: rest => groupPass window first.Timestamp [first] rest

/-- `filterLogsByEmails`. -/
def filterLogsByEmails (logs : List NormalizedLog) : List NormalizedLog :=
  logs.filter (fun l => 0 < l.UserEmails.length)

/-- `filterLogsByIPs`. -/
def filterLogsByIPs (logs : List NormalizedLog) : List NormalizedLog :=
  logs.filter (fun l => 0 < l.IPAddresses.length)

def int64Min : Int := -9223372036854775808

def int64Max : Int := 9223372036854775807

/-- `time.Time.Sub`: the difference as a `Duration` (int64 nanoseconds).
When the true difference does not fit, `Sub` saturates to
`minDuration = -2^63` or `maxDuration = 2^63 - 1` by sign. -/
def goSubTime (a b : Int) : Int :=
  if a - b < int64Min then int64Min
  else if int64Max < a - b then int64Max
  else a - b

/-- Go int64 negation is two's-complement: `-MinInt64` wraps to `MinInt64`;
every other in-range value negates normally. -/
def goNegInt64 (d : Int) : Int := if d = int64Min then int64Min else -d

/-- Embedding of `calculateConfidenceScore`: base 0.5, a time-gap bonus on
the timestamp difference, context bonuses for equal non-empty company code
and host, then a ceiling cap at 1.0.  `timeDiff` is `emailLog.Timestamp.Sub
(ipLog.Timestamp)` (saturating, see `goSubTime`) and the `timeDiff =
-timeDiff` normalization is int64 negation (wrapping on `MinInt64`, see
`goNegInt64`): a saturated `minDuration` stays negative after negation and
takes the `≤ 1 minute` branch. -/
def calculateConfidenceScore (emailLog ipLog : NormalizedLog) : ℚ :=
  let score : ℚ := 0.5
  let timeDiff := goSubTime emailLog.Timestamp ipLog.Timestamp
  let timeDiff := if timeDiff < 0 then goNegInt64 timeDiff else timeDiff
  let score :=
    if timeDiff ≤ 1 * minuteNs then score + 0.3
    else if timeDiff ≤ 5 * minuteNs then score + 0.2
    else if timeDiff ≤ 15 * minuteNs then score + 0.1
    else score
  let score :=
    if emailLog.CompanyCode ≠ "" ∧ emailLog.CompanyCode = ipLog.CompanyCode then score + 0.2
    else score
  let score :=
    if emailLog.Host ≠ "" ∧ emailLog.Host = ipLog.Host then score + 0.1
    else score
  if score > 1.0 then 1.0 else score

/-- The correlation literal built by the time-proximity loop body: first
seen from the identity-side record, last seen from the address-side record,
the two sides' sources listed as-is. -/
def mkTimeProx (email ip : String) (emailLog ipLog : NormalizedLog) : UserCorrelation :=
  { UserIdentifier := email
    IPAddress := ip
    FirstSeen := emailLog.Timestamp
    LastSeen := ipLog.Timestamp
    ConfidenceScore := calculateConfidenceScore emailLog ipLog
    SourceSystems := [emailLog.Source, ipLog.Source]
    CorrelationType := "time_proximity" }

/-- The correlation literal built by the direct loop body: fixed confidence
0.9, both timestamps from the single record. -/
def mkDirect (email ip : String) (log : NormalizedLog) : UserCorrelation :=
  { UserIdentifier := email
    IPAddress := ip
    FirstSeen := log.Timestamp
    LastSeen := log.Timestamp
    ConfidenceScore := 0.9
    SourceSystems := [log.Source]
    CorrelationType := "direct" }

/-- The time-proximity pass of `buildUserIPCorrelations`: within each
5-minute group, every (identity-bearing record, address-bearing record)
cross pair times every (identity, address) cross pair, in the source's loop
nesting order. -/
def timeProximityCandidates (logs : List NormalizedLog) : List UserCorrelation :=
  (groupLogsByTime logs (5 * minuteNs)).flatMap (fun group =>
    (filterLogsByEmails group).flatMap (fun emailLog =>
      emailLog.UserEmails.flatMap (fun email =>
        (filterLogsByIPs group).flatMap (fun ipLog =>
          ipLog.IPAddresses.map (fun ip => mkTimeProx email ip emailLog ipLog)))))

/-- The direct pass of `buildUserIPCorrelations`: a record carrying both an
identity and an address emits one fixed-confidence correlation per pair. -/
def directCandidates (logs : List NormalizedLog) : List UserCorrelation :=
  logs.flatMap (fun log =>
    if 0 < log.UserEmails.length ∧ 0 < log.IPAddresses.length then
      log.UserEmails.flatMap (fun email =>
        log.IPAddresses.map (fun ip => mkDirect email ip log))
    else [])

/-- Embedding of `buildUserIPCorrelations`: time-proximity candidates are
appended first, then the direct ones, and the list is deduplicated by
(identity, address) key keeping the strictly higher confidence. -/
def buildUserIPCorrelations (logs : List NormalizedLog) : List UserCorrelation :=
  deduplicateCorrelations (timeProximityCandidates logs ++ directCandidates logs)

/-- Embedding of `calculateCorrelationScore`:  an empty evidence list
returns 0.0 immediately; otherwise 0.1 per correlation, a per-correlation
confidence bonus, a distinct-source-count bonus, and a ceiling cap at 1.0. -/
def calculateCorrelationScore (logs : List NormalizedLog) (correlations : List UserCorrelation) : ℚ :=
  if logs.length = 0 then 0.0
  else
    let score : ℚ := 0.0
    let score := score + (correlations.length : ℚ) * 0.1
    let score := correlations.foldl
      (fun s c =>
        if c.ConfidenceScore > 0.8 then s + 0.2
        else if c.ConfidenceScore > 0.6 then s + 0.1
        else s)
      score
    let sourceCount := (addUnique [] (logs.map (fun l => l.Source))).length
    let score :=
      if 2 < sourceCount then score + 0.3
      else if 1 < sourceCount then score + 0.2
      else score
    if score > 1.0 then 1.0 else score

/-! ## Spec-side definitions (for refinement claims)

These follow the wording of the specification, to be compared with the
definitions above that were translated from the source. -/

/-- The spec's §4.4 time-gap bonus on the absolute timestamp difference. -/
def specGapBonus (a b : NormalizedLog) : ℚ :=
  if |a.Timestamp - b.Timestamp| ≤ 1 * minuteNs then 0.3
  else if |a.Timestamp - b.Timestamp| ≤ 5 * minuteNs then 0.2
  else if |a.Timestamp - b.Timestamp| ≤ 15 * minuteNs then 0.1
  else 0

/-- The spec's §4.4 context bonuses: +0.2 for an equal non-empty
company/context code, +0.1 for an equal non-empty host. -/
def specContextBonus (a b : NormalizedLog) : ℚ :=
  (if a.CompanyCode ≠ "" ∧ a.CompanyCode = b.CompanyCode then 0.2 else 0) +
    (if a.Host ≠ "" ∧ a.Host = b.Host then 0.1 else 0)

/-- The spec's §4.4 time-proximity confidence formula:
`min(1.0, 0.5 + gap bonus + context bonuses)`. -/
def specConfidenceScore (a b : NormalizedLog) : ℚ :=
  min 1 (0.5 + specGapBonus a b + specContextBonus a b)

/-- The spec's §4.7 aggregate-score formula (no empty-evidence guard):
`min(1.0, 0.1·count + Σ confidence bonuses + source-span bonus)`. -/
def specAggregateScore (logs : List NormalizedLog) (correlations : List UserCorrelation) : ℚ :=
  let confBonus := (correlations.map (fun c =>
    if c.ConfidenceScore > 0.8 then (0.2 : ℚ)
    else if c.ConfidenceScore > 0.6 then 0.1
    else 0)).sum
  let sourceCount := (addUnique [] (logs.map (fun l => l.Source))).length
  let spanBonus : ℚ :=
    if 2 < sourceCount then 0.3 else if 1 < sourceCount then 0.2 else 0
  min 1 ((correlations.length : ℚ) * 0.1 + confBonus + spanBonus)


/-- The entry kept by `mergeCorrelations` for a key present on both sides:
the historical entry with its confidence raised to the maximum and its
source list replaced by the merged union. -/
def mergedWith (ex c : UserCorrelation) : UserCorrelation :=
  { (if c.ConfidenceScore > ex.ConfidenceScore then
      { ex with ConfidenceScore := c.ConfidenceScore }
    else ex) with
    SourceSystems :=
      mergeSources
        (if c.ConfidenceScore > ex.ConfidenceScore then
            { ex with ConfidenceScore := c.ConfidenceScore }
          else ex).SourceSystems
        c.SourceSystems }

/-! ## Concrete inputs used by counterexamples and witnesses -/

/-- An address-only record at t = 0 (source `unknown`). -/
def c1AddrLog : NormalizedLog :=
  { Source := "unknown", Timestamp := 0, IPAddresses := ["10.0.0.1"] }

/-- An identity-only record two minutes later (source `unknown`). -/
def c1IdLog : NormalizedLog :=
  { Source := "unknown", Timestamp := 120 * 1000000000, UserEmails := ["x@y.com"] }

/-- A single record carrying both an identity and an address, no context. -/
def c1WitnessLog : NormalizedLog :=
  { Source := "aws_waf", Timestamp := 0, IPAddresses := ["1.2.3.4"],
    UserEmails := ["e@x.com"] }

def c1WitnessCorr : UserCorrelation := mkDirect "e@x.com" "1.2.3.4" c1WitnessLog

/-- A single record carrying both values plus a non-empty company code: its
time-proximity self-pairing scores 0.5 + 0.3 + 0.2 = 1.0 and beats the
direct candidate in deduplication. -/
def c2Log : NormalizedLog :=
  { Source := "aws_waf", Timestamp := 0, IPAddresses := ["1.2.3.4"],
    UserEmails := ["e@x.com"], CompanyCode := "acme" }

def c2WitnessLog : NormalizedLog :=
  { Source := "azure_waf", Timestamp := 0, IPAddresses := ["10.1.2.3"],
    UserEmails := ["u@v.com"] }

/-- Records at minutes 20, 2, 0 and 4 (unsorted on purpose). -/
def c3Log0 : NormalizedLog := { Source := "s", Timestamp := 0 }

def c3Log2 : NormalizedLog := { Source := "s", Timestamp := 120 * 1000000000 }

def c3Log4 : NormalizedLog := { Source := "s", Timestamp := 240 * 1000000000 }

def c3Log20 : NormalizedLog := { Source := "s", Timestamp := 1200 * 1000000000 }

def c4LogA : NormalizedLog :=
  { Source := "aws_waf", Timestamp := 300, UserEmails := ["a@b.com"],
    CompanyCode := "acme", Host := "web1" }

def c4LogB : NormalizedLog :=
  { Source := "akamai_waf", Timestamp := 300, IPAddresses := ["10.0.0.9"],
    CompanyCode := "acme", Host := "web1" }

/-- An identity-side record exactly `2^63` ns before the address-side one:
`Sub` yields `minDuration` and the wrapping negation leaves it negative. -/
def c4FarA : NormalizedLog :=
  { Source := "aws_waf", Timestamp := 0, UserEmails := ["a@b.com"] }

def c4FarB : NormalizedLog :=
  { Source := "akamai_waf", Timestamp := 9223372036854775808,
    IPAddresses := ["10.0.0.9"] }

/-- A fresh correlation with confidence 0.6. -/
def c5Fresh : UserCorrelation :=
  { UserIdentifier := "x@y.com", IPAddress := "10.0.0.1", FirstSeen := 0,
    LastSeen := 60000000000, ConfidenceScore := 0.6,
    SourceSystems := ["aws_waf"], CorrelationType := "time_proximity" }

/-- A stored correlation for the same key with confidence 0.8. -/
def c5Hist : UserCorrelation :=
  { UserIdentifier := "x@y.com", IPAddress := "10.0.0.1", FirstSeen := 5,
    LastSeen := 9, ConfidenceScore := 0.8,
    SourceSystems := ["akamai_waf"], CorrelationType := "historical" }

def c6Corr : UserCorrelation :=
  { UserIdentifier := "x@y.com", IPAddress := "10.0.0.1",
    ConfidenceScore := 0.5, SourceSystems := ["aws_waf"],
    CorrelationType := "direct" }

def c9AddrLog : NormalizedLog :=
  { Source := "unknown", Timestamp := 0, IPAddresses := ["10.0.0.2"] }

def c9IdLog : NormalizedLog :=
  { Source := "unknown", Timestamp := 120 * 1000000000, UserEmails := ["y@z.com"] }

def c9WitnessLog : NormalizedLog :=
  { Source := "deep_security", Timestamp := 0, IPAddresses := ["10.9.9.9"],
    UserEmails := ["w@q.com"] }

def c9WitnessCorr : UserCorrelation := mkDirect "w@q.com" "10.9.9.9" c9WitnessLog

/-! ## Helper lemmas -/

-- The library's rational arithmetic is sealed against unfolding; the
-- concrete score evaluations below go through the kernel, so re-open it.
attribute [local semireducible] Rat.add Rat.sub Rat.mul Rat.inv Rat.ofScientific

theorem addUnique_cons (acc : List String) (s : String) (rest : List String) :
    addUnique acc (s :: rest) = addUnique (if s ∈ acc then acc else acc ++ [s]) rest := rfl

theorem mem_addUnique : ∀ (l acc : List String) (x : String),
    x ∈ addUnique acc l ↔ x ∈ acc ∨ x ∈ l
  | [], acc, x => by simp [addUnique]
  | s :: rest, acc, x => by
      rw [addUnique_cons, mem_addUnique rest]
      by_cases hs : s ∈ acc
      · rw [if_pos hs]
        constructor
        · rintro (h | h)
          · exact Or.inl h
          · exact Or.inr (List.mem_cons_of_mem s h)
        · rintro (h | h)
          · exact Or.inl h
          · rcases List.mem_cons.mp h with rfl | h
            · exact Or.inl hs
            · exact Or.inr h
      · rw [if_neg hs]
        simp only [List.mem_append, List.mem_singleton, List.mem_cons]
        tauto

theorem nodup_addUnique : ∀ (l acc : List String), acc.Nodup → (addUnique acc l).Nodup
  | [], _, h => h
  | s :: rest, acc, h => by
      rw [addUnique_cons]
      by_cases hs : s ∈ acc
      · rw [if_pos hs]; exact nodup_addUnique rest acc h
      · rw [if_neg hs]
        refine nodup_addUnique rest _ ?_
        simp [List.nodup_append, h, hs]

theorem lookupKey_setKey_self (k : String) (v : UserCorrelation) :
    ∀ m, lookupKey k (setKey k v m) = some v
  | [] => by simp [setKey, lookupKey]
  | (k', v') :: rest => by
      by_cases h : k' = k
      · simp [setKey, h, lookupKey]
      · simp only [setKey, if_neg h, lookupKey, if_neg h]
        exact lookupKey_setKey_self k v rest

theorem lookupKey_setKey_ne (k q : String) (v : UserCorrelation) (h : k ≠ q) :
    ∀ m, lookupKey q (setKey k v m) = lookupKey q m
  | [] => by simp [setKey, lookupKey, h]
  | (k', v') :: rest => by
      by_cases h' : k' = k
      · subst h'
        simp [setKey, lookupKey, h]
      · simp only [setKey, if_neg h', lookupKey]
        by_cases h'' : k' = q
        · simp [h'']
        · simp only [if_neg h'']
          exact lookupKey_setKey_ne k q v h rest

theorem lookupKey_append_some (k : String) (v : UserCorrelation) :
    ∀ m m', lookupKey k m = some v → lookupKey k (m ++ m') = some v
  | [], _, h => by simp [lookupKey] at h
  | (k', v') :: rest, m', h => by
      by_cases hk : k' = k
      · simp only [lookupKey, if_pos hk] at h
        simp [lookupKey, hk, h]
      · simp only [lookupKey, if_neg hk] at h
        simp only [List.cons_append, lookupKey, if_neg hk]
        exact lookupKey_append_some k v rest m' h

theorem lookupKey_append_none (k : String) :
    ∀ m m', lookupKey k m = none → lookupKey k (m ++ m') = lookupKey k m'
  | [], _, _ => by simp
  | (k', v') :: rest, m', h => by
      by_cases hk : k' = k
      · simp [lookupKey, hk] at h
      · simp only [lookupKey, if_neg hk] at h
        simp only [List.cons_append, lookupKey, if_neg hk]
        exact lookupKey_append_none k rest m' h

theorem mem_of_lookupKey (k : String) (v : UserCorrelation) :
    ∀ m, lookupKey k m = some v → (k, v) ∈ m
  | [], h => by simp [lookupKey] at h
  | (k', v') :: rest, h => by
      by_cases hk : k' = k
      · simp only [lookupKey, if_pos hk] at h
        obtain rfl : v' = v := Option.some.inj h
        subst hk
        exact List.mem_cons_self _ _
      · simp only [lookupKey, if_neg hk] at h
        exact List.mem_cons_of_mem _ (mem_of_lookupKey k v rest h)

theorem mem_setKey (k : String) (v : UserCorrelation) :
    ∀ m p, p ∈ setKey k v m → p = (k, v) ∨ p ∈ m
  | [], p, h => by simpa [setKey] using h
  | (k', v') :: rest, p, h => by
      by_cases hk : k' = k
      · simp only [setKey, if_pos hk] at h
        rcases List.mem_cons.mp h with rfl | h
        · exact Or.inl rfl
        · exact Or.inr (List.mem_cons_of_mem _ h)
      · simp only [setKey, if_neg hk] at h
        rcases List.mem_cons.mp h with rfl | h
        · exact Or.inr (List.mem_cons_self _ _)
        · rcases mem_setKey k v rest p h with h | h
          · exact Or.inl h
          · exact Or.inr (List.mem_cons_of_mem _ h)

theorem char_toNat_ofNat (n : Nat) (h : n < 55296) : (Char.ofNat n).toNat = n := by
  have hv : n.isValidChar := Or.inl h
  rw [Char.ofNat, dif_pos hv]
  rfl

theorem toLower_toNat (c : Char) :
    (Char.toLower c).toNat =
      if c.toNat ≥ 65 ∧ c.toNat ≤ 90 then c.toNat + 32 else c.toNat := by
  rw [Char.toLower]
  split_ifs with h
  · exact char_toNat_ofNat _ (by omega)
  · rfl

/-- `Char.toLower` never produces an ASCII uppercase letter. -/
theorem toLower_not_upper (c : Char) :
    ¬(65 ≤ (Char.toLower c).toNat ∧ (Char.toLower c).toNat ≤ 90) := by
  rw [toLower_toNat]
  split_ifs with h <;> omega

/-- `String.data` determines the string. -/
theorem string_data_inj {s t : String} (h : s.data = t.data) : s = t := by
  cases s
  cases t
  exact congrArg String.mk h

/-- No `'|'` occurs among the characters of `s`; keys built by `corrKey`
decompose uniquely for such strings. -/
def pipeFree (s : String) : Prop := '|' ∉ s.data

instance (s : String) : Decidable (pipeFree s) := by
  unfold pipeFree
  infer_instance

theorem pipe_append_inj (l1 : List Char) : ∀ (l3 l2 l4 : List Char),
    '|' ∉ l1 → '|' ∉ l3 → l1 ++ '|' :: l2 = l3 ++ '|' :: l4 →
    l1 = l3 ∧ l2 = l4 := by
  induction l1 with
  | nil =>
      intro l3 l2 l4 _ h3 h
      cases l3 with
      | nil => simpa using h
      | cons c l3 =>
          exfalso
          simp only [List.nil_append, List.cons_append, List.cons.injEq] at h
          exact h3 (by rw [h.1]; exact List.mem_cons_self c l3)
  | cons a l1 ih =>
      intro l3 l2 l4 h1 h3 h
      cases l3 with
      | nil =>
          exfalso
          simp only [List.cons_append, List.nil_append, List.cons.injEq] at h
          exact h1 (by rw [h.1]; exact List.mem_cons_self _ _)
      | cons b l3 =>
          simp only [List.cons_append, List.cons.injEq] at h
          obtain ⟨rfl, h'⟩ := h
          have h2 := ih l3 l2 l4
            (fun hm => h1 (List.mem_cons_of_mem _ hm))
            (fun hm => h3 (List.mem_cons_of_mem _ hm)) h'
          exact ⟨by rw [h2.1], h2.2⟩

theorem corrKey_inj (c d : UserCorrelation)
    (hcu : pipeFree c.UserIdentifier) (hdu : pipeFree d.UserIdentifier)
    (h : corrKey c = corrKey d) :
    c.UserIdentifier = d.UserIdentifier ∧ c.IPAddress = d.IPAddress := by
  have hd := congrArg String.data h
  simp only [corrKey, String.data_append, List.append_assoc] at hd
  simp only [show ("|" : String).data = ['|'] from rfl, List.singleton_append] at hd
  obtain ⟨h1, h2⟩ := pipe_append_inj _ _ _ _ hcu hdu hd
  exact ⟨string_data_inj h1, string_data_inj h2⟩

theorem insertDedup_eq_some (m : List (String × UserCorrelation))
    (c ex : UserCorrelation) (hm : lookupKey (corrKey c) m = some ex) :
    insertDedup m c =
      if c.ConfidenceScore > ex.ConfidenceScore then setKey (corrKey c) c m
      else m := by
  unfold insertDedup
  rw [hm]

theorem insertDedup_eq_none (m : List (String × UserCorrelation))
    (c : UserCorrelation) (hm : lookupKey (corrKey c) m = none) :
    insertDedup m c = m ++ [(corrKey c, c)] := by
  unfold insertDedup
  rw [hm]

theorem insertMerge_eq_some (m : List (String × UserCorrelation))
    (c ex : UserCorrelation) (hm : lookupKey (corrKey c) m = some ex) :
    insertMerge m c =
      setKey (corrKey c)
        { (if c.ConfidenceScore > ex.ConfidenceScore then
            { ex with ConfidenceScore := c.ConfidenceScore }
          else ex) with
          SourceSystems :=
            mergeSources
              (if c.ConfidenceScore > ex.ConfidenceScore then
                  { ex with ConfidenceScore := c.ConfidenceScore }
                else ex).SourceSystems
              c.SourceSystems } m := by
  unfold insertMerge
  rw [hm]

theorem insertMerge_eq_none (m : List (String × UserCorrelation))
    (c : UserCorrelation) (hm : lookupKey (corrKey c) m = none) :
    insertMerge m c = m ++ [(corrKey c, c)] := by
  unfold insertMerge
  rw [hm]

theorem lookupKey_single_ne (k : String) (c : UserCorrelation)
    (h : corrKey c ≠ k) : lookupKey k [(corrKey c, c)] = none := by
  simp [lookupKey, h]

theorem insertDedup_lookup_other (m : List (String × UserCorrelation))
    (c : UserCorrelation) (k : String) (h : corrKey c ≠ k) :
    lookupKey k (insertDedup m c) = lookupKey k m := by
  cases hm : lookupKey (corrKey c) m with
  | some ex =>
      rw [insertDedup_eq_some m c ex hm]
      by_cases hc : c.ConfidenceScore > ex.ConfidenceScore
      · rw [if_pos hc]
        exact lookupKey_setKey_ne _ _ _ h m
      · rw [if_neg hc]
  | none =>
      rw [insertDedup_eq_none m c hm]
      cases hk : lookupKey k m with
      | some v => exact lookupKey_append_some k v m _ hk
      | none => rw [lookupKey_append_none k m _ hk, lookupKey_single_ne k c h]

theorem insertMerge_lookup_other (m : List (String × UserCorrelation))
    (c : UserCorrelation) (k : String) (h : corrKey c ≠ k) :
    lookupKey k (insertMerge m c) = lookupKey k m := by
  cases hm : lookupKey (corrKey c) m with
  | some ex =>
      rw [insertMerge_eq_some m c ex hm]
      exact lookupKey_setKey_ne _ _ _ h m
  | none =>
      rw [insertMerge_eq_none m c hm]
      cases hk : lookupKey k m with
      | some v => exact lookupKey_append_some k v m _ hk
      | none => rw [lookupKey_append_none k m _ hk, lookupKey_single_ne k c h]

theorem dedupFold_mono : ∀ (cs : List UserCorrelation)
    (m : List (String × UserCorrelation)) (k : String) (v : UserCorrelation),
    lookupKey k m = some v →
    ∃ w, lookupKey k (cs.foldl insertDedup m) = some w ∧
      v.ConfidenceScore ≤ w.ConfidenceScore
  | [], _, _, v, h => ⟨v, h, le_refl _⟩
  | c :: cs, m, k, v, h => by
      rw [List.foldl_cons]
      by_cases hk : corrKey c = k
      · subst hk
        rw [insertDedup_eq_some m c v h]
        by_cases hc : c.ConfidenceScore > v.ConfidenceScore
        · rw [if_pos hc]
          obtain ⟨w, hw, hcw⟩ :=
            dedupFold_mono cs _ _ c (lookupKey_setKey_self _ _ m)
          exact ⟨w, hw, le_trans (le_of_lt hc) hcw⟩
        · rw [if_neg hc]
          exact dedupFold_mono cs m _ v h
      · obtain ⟨w, hw, hvw⟩ := dedupFold_mono cs (insertDedup m c) k v
          ((insertDedup_lookup_other m c k hk).trans h)
        exact ⟨w, hw, hvw⟩

theorem dedupFold_introduced : ∀ (cs : List UserCorrelation)
    (m : List (String × UserCorrelation)) (c : UserCorrelation), c ∈ cs →
    ∃ w, lookupKey (corrKey c) (cs.foldl insertDedup m) = some w ∧
      c.ConfidenceScore ≤ w.ConfidenceScore
  | [], _, c, h => absurd h (List.not_mem_nil c)
  | c' :: cs, m, c, h => by
      rw [List.foldl_cons]
      rcases List.mem_cons.mp h with rfl | h
      · have hstep : ∃ w0, lookupKey (corrKey c) (insertDedup m c) = some w0 ∧
            c.ConfidenceScore ≤ w0.ConfidenceScore := by
          cases hm : lookupKey (corrKey c) m with
          | some ex =>
              rw [insertDedup_eq_some m c ex hm]
              by_cases hc : c.ConfidenceScore > ex.ConfidenceScore
              · rw [if_pos hc]
                exact ⟨c, lookupKey_setKey_self _ _ m, le_refl _⟩
              · rw [if_neg hc]
                exact ⟨ex, hm, le_of_not_lt hc⟩
          | none =>
              refine ⟨c, ?_, le_refl _⟩
              rw [insertDedup_eq_none m c hm, lookupKey_append_none _ m _ hm]
              simp [lookupKey]
        obtain ⟨w0, hw0, hcw0⟩ := hstep
        obtain ⟨w, hw, hww⟩ := dedupFold_mono cs (insertDedup m c) _ w0 hw0
        exact ⟨w, hw, le_trans hcw0 hww⟩
      · exact dedupFold_introduced cs (insertDedup m c') c h

theorem dedupFold_pairs (P : String × UserCorrelation → Prop) :
    ∀ (cs : List UserCorrelation) (m : List (String × UserCorrelation)),
    (∀ c ∈ cs, P (corrKey c, c)) → (∀ p ∈ m, P p) →
    ∀ p ∈ cs.foldl insertDedup m, P p
  | [], _, _, hm, p, hp => hm p hp
  | c :: cs, m, hcs, hm, p, hp => by
      rw [List.foldl_cons] at hp
      refine dedupFold_pairs P cs (insertDedup m c)
        (fun c' hc' => hcs c' (List.mem_cons_of_mem _ hc')) ?_ p hp
      intro q hq
      cases hmq : lookupKey (corrKey c) m with
      | some ex =>
          rw [insertDedup_eq_some m c ex hmq] at hq
          by_cases hc : c.ConfidenceScore > ex.ConfidenceScore
          · rw [if_pos hc] at hq
            rcases mem_setKey _ _ m q hq with rfl | hq
            · exact hcs c (List.mem_cons_self _ _)
            · exact hm q hq
          · rw [if_neg hc] at hq
            exact hm q hq
      | none =>
          rw [insertDedup_eq_none m c hmq] at hq
          rcases List.mem_append.mp hq with hq | hq
          · exact hm q hq
          · rcases List.mem_singleton.mp hq with rfl
            exact hcs c (List.mem_cons_self _ _)

/-- Every value surviving deduplication is one of the input candidates. -/
theorem dedup_subset (cs : List UserCorrelation) (w : UserCorrelation)
    (h : w ∈ deduplicateCorrelations cs) : w ∈ cs := by
  unfold deduplicateCorrelations at h
  obtain ⟨p, hp, rfl⟩ := List.mem_map.mp h
  exact dedupFold_pairs (fun p => p.2 ∈ cs) cs []
    (fun c hc => hc) (by simp) p hp

theorem setFold_lookup_notin : ∀ (cs : List UserCorrelation)
    (m : List (String × UserCorrelation)) (k : String),
    (∀ c ∈ cs, corrKey c ≠ k) →
    lookupKey k (cs.foldl (fun m c => setKey (corrKey c) c m) m) = lookupKey k m
  | [], _, _, _ => rfl
  | c :: cs, m, k, h => by
      rw [List.foldl_cons]
      rw [setFold_lookup_notin cs _ k (fun c' hc' => h c' (List.mem_cons_of_mem _ hc'))]
      exact lookupKey_setKey_ne _ _ _ (h c (List.mem_cons_self _ _)) m

theorem setFold_lookup_mem : ∀ (cs : List UserCorrelation)
    (m : List (String × UserCorrelation)) (ko : UserCorrelation),
    ko ∈ cs → (cs.map corrKey).Nodup →
    lookupKey (corrKey ko) (cs.foldl (fun m c => setKey (corrKey c) c m) m) = some ko
  | [], _, ko, h, _ => absurd h (List.not_mem_nil ko)
  | c :: cs, m, ko, h, hnd => by
      rw [List.foldl_cons]
      rw [List.map_cons] at hnd
      have hnd' := List.nodup_cons.mp hnd
      rcases List.mem_cons.mp h with rfl | h
      · rw [setFold_lookup_notin cs _ (corrKey ko)
          (fun c' hc' hk => hnd'.1 (hk ▸ List.mem_map_of_mem corrKey hc'))]
        exact lookupKey_setKey_self _ _ m
      · exact setFold_lookup_mem cs _ ko h hnd'.2

theorem mergeFold_notin : ∀ (cs : List UserCorrelation)
    (m : List (String × UserCorrelation)) (k : String),
    (∀ c ∈ cs, corrKey c ≠ k) →
    lookupKey k (cs.foldl insertMerge m) = lookupKey k m
  | [], _, _, _ => rfl
  | c :: cs, m, k, h => by
      rw [List.foldl_cons]
      rw [mergeFold_notin cs _ k (fun c' hc' => h c' (List.mem_cons_of_mem _ hc'))]
      exact insertMerge_lookup_other m c k (h c (List.mem_cons_self _ _))

theorem mergeFold_result : ∀ (cs : List UserCorrelation)
    (m : List (String × UserCorrelation)) (kn ko : UserCorrelation),
    kn ∈ cs → (cs.map corrKey).Nodup → lookupKey (corrKey kn) m = some ko →
    lookupKey (corrKey kn) (cs.foldl insertMerge m) = some (mergedWith ko kn)
  | [], _, kn, _, h, _, _ => absurd h (List.not_mem_nil kn)
  | c :: cs, m, kn, ko, h, hnd, hm => by
      rw [List.foldl_cons]
      rw [List.map_cons] at hnd
      have hnd' := List.nodup_cons.mp hnd
      rcases List.mem_cons.mp h with rfl | h
      · rw [mergeFold_notin cs _ (corrKey kn)
          (fun c' hc' hk => hnd'.1 (hk ▸ List.mem_map_of_mem corrKey hc'))]
        rw [insertMerge_eq_some m kn ko hm]
        exact lookupKey_setKey_self _ _ m
      · refine mergeFold_result cs _ kn ko h hnd'.2 ?_
        have hne : corrKey c ≠ corrKey kn :=
          fun hk => hnd'.1 (hk ▸ List.mem_map_of_mem corrKey h)
        rw [insertMerge_lookup_other m c _ hne, hm]

theorem mem_bubblePassAux : ∀ (l : List NormalizedLog) (a x : NormalizedLog),
    x ∈ bubblePassAux a l ↔ x = a ∨ x ∈ l
  | [], a, x => by simp [bubblePassAux]
  | b :: rest, a, x => by
      unfold bubblePassAux
      by_cases h : b.Timestamp < a.Timestamp
      · rw [if_pos h, List.mem_cons, mem_bubblePassAux rest a x, List.mem_cons]
        tauto
      · rw [if_neg h, List.mem_cons, mem_bubblePassAux rest b x, List.mem_cons]

theorem mem_bubblePass (l : List NormalizedLog) (x : NormalizedLog) :
    x ∈ bubblePass l ↔ x ∈ l := by
  cases l with
  | nil => simp [bubblePass]
  | cons a rest =>
      unfold bubblePass
      rw [mem_bubblePassAux rest a x, List.mem_cons]

theorem mem_bubbleAux : ∀ (n : Nat) (l : List NormalizedLog) (x : NormalizedLog),
    x ∈ bubbleAux n l ↔ x ∈ l
  | 0, _, _ => Iff.rfl
  | n + 1, l, x => by
      unfold bubbleAux
      rw [mem_bubbleAux n (bubblePass l) x, mem_bubblePass l x]

theorem mem_bubbleSort (l : List NormalizedLog) (x : NormalizedLog) :
    x ∈ bubbleSort l ↔ x ∈ l :=
  mem_bubbleAux _ l x

theorem mem_groupPass : ∀ (rest : List NormalizedLog) (window groupStart : Int)
    (cur : List NormalizedLog) (g : List NormalizedLog),
    g ∈ groupPass window groupStart cur rest →
    ∀ x ∈ g, x ∈ cur ∨ x ∈ rest
  | [], w, gs, cur, g, hg, x, hx => by
      simp only [groupPass, List.mem_singleton] at hg
      exact Or.inl (hg ▸ hx)
  | l :: rest, w, gs, cur, g, hg, x, hx => by
      unfold groupPass at hg
      by_cases h : l.Timestamp - gs ≤ w
      · rw [if_pos h] at hg
        rcases mem_groupPass rest w gs (cur ++ [l]) g hg x hx with hc | hr
        · rcases List.mem_append.mp hc with hc | hc
          · exact Or.inl hc
          · rcases List.mem_singleton.mp hc with rfl
            exact Or.inr (List.mem_cons_self _ _)
        · exact Or.inr (List.mem_cons_of_mem _ hr)
      · rw [if_neg h] at hg
        rcases List.mem_cons.mp hg with rfl | hg
        · exact Or.inl hx
        · rcases mem_groupPass rest w l.Timestamp [l] g hg x hx with hc | hr
          · rcases List.mem_singleton.mp hc with rfl
            exact Or.inr (List.mem_cons_self _ _)
          · exact Or.inr (List.mem_cons_of_mem _ hr)

/-- Every record inside any group produced by `groupLogsByTime` is one of the
input records. -/
theorem mem_groupLogsByTime (logs : List NormalizedLog) (window : Int)
    (g : List NormalizedLog) (hg : g ∈ groupLogsByTime logs window)
    (x : NormalizedLog) (hx : x ∈ g) : x ∈ logs := by
  unfold groupLogsByTime at hg
  cases hs : bubbleSort logs with
  | nil => rw [hs] at hg; simp at hg
  | cons f rest =>
      rw [hs] at hg
      have := mem_groupPass rest window f.Timestamp [f] g hg x hx
      have hmem : x ∈ f :: rest := by
        rcases this with hc | hr
        · rcases List.mem_singleton.mp hc with rfl
          exact List.mem_cons_self _ _
        · exact List.mem_cons_of_mem _ hr
      rw [← hs] at hmem
      exact (mem_bubbleSort logs x).mp hmem

/-- Invariant of the greedy pass: provided every record already in the
running group is within `window` of its first element, every emitted group
is nonempty and all its members are within `window` of its first element. -/
theorem groupPass_anchored : ∀ (rest : List NormalizedLog) (window : Int)
    (a : NormalizedLog) (t : List NormalizedLog),
    0 ≤ window →
    (∀ x ∈ a :: t, x.Timestamp - a.Timestamp ≤ window) →
    ∀ g ∈ groupPass window a.Timestamp (a :: t) rest,
    ∃ b u, g = b :: u ∧ ∀ x ∈ g, x.Timestamp - b.Timestamp ≤ window
  | [], w, a, t, hw, hcur, g, hg => by
      simp only [groupPass, List.mem_singleton] at hg
      exact ⟨a, t, hg, hg ▸ hcur⟩
  | l :: rest, w, a, t, hw, hcur, g, hg => by
      unfold groupPass at hg
      by_cases h : l.Timestamp - a.Timestamp ≤ w
      · rw [if_pos h] at hg
        have : a :: t ++ [l] = a :: (t ++ [l]) := by simp
        rw [this] at hg
        refine groupPass_anchored rest w a (t ++ [l]) hw ?_ g hg
        intro x hx
        rcases List.mem_cons.mp hx with rfl | hx
        · simpa using hw
        · rcases List.mem_append.mp hx with hx | hx
          · exact hcur x (List.mem_cons_of_mem _ hx)
          · rcases List.mem_singleton.mp hx with rfl
            exact h
      · rw [if_neg h] at hg
        rcases List.mem_cons.mp hg with rfl | hg
        · exact ⟨a, t, rfl, hcur⟩
        · refine groupPass_anchored rest w l [] hw ?_ g hg
          intro x hx
          rcases List.mem_singleton.mp hx with rfl
          simpa using hw

/-- The direct-pass candidate for any (identity, address) pair of any input
record is among the builder's pre-deduplication candidates. -/
theorem mkDirect_mem_candidates (logs : List NormalizedLog)
    (r : NormalizedLog) (hr : r ∈ logs) (e : String) (he : e ∈ r.UserEmails)
    (ip : String) (hip : ip ∈ r.IPAddresses) :
    mkDirect e ip r ∈ directCandidates logs := by
  unfold directCandidates
  refine List.mem_flatMap.mpr ⟨r, hr, ?_⟩
  rw [if_pos ⟨List.length_pos.mpr (List.ne_nil_of_mem he),
    List.length_pos.mpr (List.ne_nil_of_mem hip)⟩]
  exact List.mem_flatMap.mpr ⟨e, he, List.mem_map.mpr ⟨ip, hip, rfl⟩⟩

/-- Shape of a direct-pass candidate. -/
theorem directCandidates_shape (logs : List NormalizedLog)
    (c : UserCorrelation) (hc : c ∈ directCandidates logs) :
    ∃ l ∈ logs, ∃ e ∈ l.UserEmails, ∃ ip ∈ l.IPAddresses,
      c = mkDirect e ip l := by
  unfold directCandidates at hc
  obtain ⟨l, hl, hc⟩ := List.mem_flatMap.mp hc
  by_cases hg : 0 < l.UserEmails.length ∧ 0 < l.IPAddresses.length
  · rw [if_pos hg] at hc
    obtain ⟨e, he, hc⟩ := List.mem_flatMap.mp hc
    obtain ⟨ip, hip, rfl⟩ := List.mem_map.mp hc
    exact ⟨l, hl, e, he, ip, hip, rfl⟩
  · rw [if_neg hg] at hc
    simp at hc

/-- Shape of a time-proximity candidate. -/
theorem timeProximityCandidates_shape (logs : List NormalizedLog)
    (c : UserCorrelation) (hc : c ∈ timeProximityCandidates logs) :
    ∃ el il : NormalizedLog, el ∈ logs ∧ il ∈ logs ∧
      ∃ e ∈ el.UserEmails, ∃ ip ∈ il.IPAddresses,
      c = mkTimeProx e ip el il := by
  unfold timeProximityCandidates at hc
  obtain ⟨g, hg, hc⟩ := List.mem_flatMap.mp hc
  obtain ⟨el, hel, hc⟩ := List.mem_flatMap.mp hc
  obtain ⟨e, he, hc⟩ := List.mem_flatMap.mp hc
  obtain ⟨il, hil, hc⟩ := List.mem_flatMap.mp hc
  obtain ⟨ip, hip, rfl⟩ := List.mem_map.mp hc
  have hel' : el ∈ g := List.mem_filter.mp hel |>.1
  have hil' : il ∈ g := List.mem_filter.mp hil |>.1
  exact ⟨el, il, mem_groupLogsByTime logs _ g hg el hel',
    mem_groupLogsByTime logs _ g hg il hil', e, he, ip, hip, rfl⟩

/-- Every builder candidate draws its identity from some input record's
identity set and its address from some input record's address set. -/
theorem candidates_provenance (logs : List NormalizedLog) (c : UserCorrelation)
    (hc : c ∈ timeProximityCandidates logs ++ directCandidates logs) :
    (∃ l ∈ logs, c.UserIdentifier ∈ l.UserEmails) ∧
    (∃ l ∈ logs, c.IPAddress ∈ l.IPAddresses) := by
  rcases List.mem_append.mp hc with hc | hc
  · obtain ⟨el, il, hel, hil, e, he, ip, hip, rfl⟩ :=
      timeProximityCandidates_shape logs c hc
    exact ⟨⟨el, hel, he⟩, ⟨il, hil, hip⟩⟩
  · obtain ⟨l, hl, e, he, ip, hip, rfl⟩ := directCandidates_shape logs c hc
    exact ⟨⟨l, hl, he⟩, ⟨l, hl, hip⟩⟩

theorem extractIPs_valid_aux : ∀ (ms : List String) (acc : List String × List String),
    (∀ ip ∈ acc.1, isValidIP ip = true) →
    ∀ ip ∈ (ms.foldl
      (fun acc m =>
        if isValidIP m && decide (m ∉ acc.2) then (acc.1 ++ [m], acc.2 ++ [m])
        else acc) acc).1,
    isValidIP ip = true
  | [], _, hacc, ip, hip => hacc ip hip
  | m :: ms, acc, hacc, ip, hip => by
      rw [List.foldl_cons] at hip
      by_cases h : (isValidIP m && decide (m ∉ acc.2)) = true
      · rw [if_pos h] at hip
        refine extractIPs_valid_aux ms _ ?_ ip hip
        intro ip' hip'
        rcases List.mem_append.mp hip' with hm | hm
        · exact hacc ip' hm
        · rcases List.mem_singleton.mp hm with rfl
          exact (Bool.and_eq_true _ _ |>.mp h).1
      · rw [if_neg h] at hip
        exact extractIPs_valid_aux ms acc hacc ip hip

/-- Every address returned by `extractIPs` passes `isValidIP`. -/
theorem extractIPs_valid (text : String) (ip : String)
    (h : ip ∈ extractIPs text) : isValidIP ip = true := by
  unfold extractIPs at h
  exact extractIPs_valid_aux (ipMatches text) ([], []) (by simp) ip h

theorem extractEmails_fold_eq : ∀ (ms : List String) (seen : List String),
    (ms.foldl
      (fun acc m =>
        if decide (m ∉ acc.2) then (acc.1 ++ [lowerStr m], acc.2 ++ [m])
        else acc) (seen.map lowerStr, seen)) =
    ((addUnique seen ms).map lowerStr, addUnique seen ms)
  | [], seen => by simp [addUnique]
  | m :: ms, seen => by
      rw [List.foldl_cons, addUnique_cons]
      by_cases h : m ∈ seen
      · rw [if_pos h]
        have hd : decide (m ∉ seen) = false := by simp [h]
        rw [if_neg (by simp [hd])]
        exact extractEmails_fold_eq ms seen
      · rw [if_neg h]
        have hd : decide (m ∉ seen) = true := by simp [h]
        rw [if_pos (by simp [hd])]
        have : (seen.map lowerStr ++ [lowerStr m], seen ++ [m]) =
            ((seen ++ [m]).map lowerStr, seen ++ [m]) := by
          simp
        rw [this]
        exact extractEmails_fold_eq ms (seen ++ [m])

/-- `extractEmails` is exactly the lowercasing of the duplicate-free (by raw
match) subsequence of the regex matches. -/
theorem extractEmails_eq (text : String) :
    extractEmails text = (addUnique [] (emailMatches text)).map lowerStr := by
  unfold extractEmails
  have h := extractEmails_fold_eq (emailMatches text) []
  simp only [List.map_nil] at h
  rw [h]

theorem confBonus_foldl : ∀ (cs : List UserCorrelation) (s : ℚ),
    cs.foldl
      (fun s c =>
        if c.ConfidenceScore > 0.8 then s + 0.2
        else if c.ConfidenceScore > 0.6 then s + 0.1
        else s) s =
    s + (cs.map (fun c =>
      if c.ConfidenceScore > 0.8 then (0.2 : ℚ)
      else if c.ConfidenceScore > 0.6 then 0.1
      else 0)).sum
  | [], s => by simp
  | c :: cs, s => by
      rw [List.foldl_cons, List.map_cons, List.sum_cons, confBonus_foldl cs]
      by_cases h1 : c.ConfidenceScore > 0.8
      · rw [if_pos h1, if_pos h1]
        ring
      · rw [if_neg h1, if_neg h1]
        by_cases h2 : c.ConfidenceScore > 0.6
        · rw [if_pos h2, if_pos h2]
          ring
        · rw [if_neg h2, if_neg h2]
          ring

/-! ## Claims -/

/-- C1 (counterexample): an address-only record at t = 0 followed by an
identity-only record two minutes later falls into one 5-minute group; the
builder's time-proximity correlation takes `FirstSeen` from the identity
side (t = 2 min) and `LastSeen` from the address side (t = 0), so the
claimed invariant `first_observed ≤ last_observed` fails on the builder's
output. -/
theorem c1_counterexample :
    ¬ ∀ c ∈ buildUserIPCorrelations [c1AddrLog, c1IdLog],
      c.FirstSeen ≤ c.LastSeen := by
  decide

/-- C1 (amended): `first_observed ≤ last_observed` does hold for every
correlation of method `direct` in the builder's output (both timestamps are
the same record's timestamp); time-proximity correlations order the two
timestamps by evidence side, not chronologically, and may violate it. -/
theorem c1_direct_first_le_last (logs : List NormalizedLog)
    (c : UserCorrelation) (hc : c ∈ buildUserIPCorrelations logs)
    (hd : c.CorrelationType = "direct") : c.FirstSeen ≤ c.LastSeen := by
  unfold buildUserIPCorrelations at hc
  have hc' := dedup_subset _ c hc
  rcases List.mem_append.mp hc' with h | h
  · obtain ⟨el, il, _, _, e, _, ip, _, rfl⟩ :=
      timeProximityCandidates_shape logs c h
    simp [mkTimeProx] at hd
  · obtain ⟨l, _, e, _, ip, _, rfl⟩ := directCandidates_shape logs c h
    exact le_refl _

/-- C1 (witness): the amended theorem applied to a concrete one-record
input whose direct correlation survives deduplication. -/
theorem c1_witness :
    c1WitnessCorr ∈ buildUserIPCorrelations [c1WitnessLog] ∧
    c1WitnessCorr.CorrelationType = "direct" ∧
    c1WitnessCorr.FirstSeen ≤ c1WitnessCorr.LastSeen :=
  ⟨by decide, by decide,
    c1_direct_first_le_last [c1WitnessLog] c1WitnessCorr (by decide) (by decide)⟩

/-- C2 (counterexample): a record with a non-empty company code pairs with
itself in the time-proximity pass at score 0.5 + 0.3 + 0.2 = 1.0, which
beats the direct candidate's 0.9 in deduplication; the output holds no
correlation of method `direct` with confidence 0.9 for that pair. -/
theorem c2_counterexample :
    ¬ ∃ c ∈ buildUserIPCorrelations [c2Log],
      c.UserIdentifier = "e@x.com" ∧ c.IPAddress = "1.2.3.4" ∧
      c.CorrelationType = "direct" ∧ c.ConfidenceScore = 0.9 := by
  decide

/-- C2 (amended): for every record with non-empty identity and address sets
and every (identity, address) pair drawn from it, the deduplicated builder
output contains a correlation for that pair with confidence at least 0.9
(the direct candidate's 0.9, or a time-proximity candidate that displaced
it with a score of at least as much).  The pipe-freedom hypotheses rule out
`"|"` in the values, which the source's concatenated map key cannot
distinguish; every string the extractor produces is pipe-free. -/
theorem c2_direct_pairs (logs : List NormalizedLog)
    (hpipe : ∀ l ∈ logs, (∀ e ∈ l.UserEmails, pipeFree e) ∧
      (∀ ip ∈ l.IPAddresses, pipeFree ip))
    (r : NormalizedLog) (hr : r ∈ logs) (e : String) (he : e ∈ r.UserEmails)
    (ip : String) (hip : ip ∈ r.IPAddresses) :
    ∃ c ∈ buildUserIPCorrelations logs,
      c.UserIdentifier = e ∧ c.IPAddress = ip ∧
      (0.9 : ℚ) ≤ c.ConfidenceScore := by
  have hcand : mkDirect e ip r ∈
      timeProximityCandidates logs ++ directCandidates logs :=
    List.mem_append.mpr (Or.inr (mkDirect_mem_candidates logs r hr e he ip hip))
  obtain ⟨w, hw, hconf⟩ := dedupFold_introduced
    (timeProximityCandidates logs ++ directCandidates logs) [] _ hcand
  have hpair := mem_of_lookupKey _ _ _ hw
  have hkey : corrKey (mkDirect e ip r) = corrKey w :=
    dedupFold_pairs (fun p => p.1 = corrKey p.2)
      (timeProximityCandidates logs ++ directCandidates logs) []
      (fun c _ => rfl) (by simp) _ hpair
  have hwout : w ∈ buildUserIPCorrelations logs := by
    unfold buildUserIPCorrelations deduplicateCorrelations
    exact List.mem_map.mpr ⟨_, hpair, rfl⟩
  have hwcs : w ∈ timeProximityCandidates logs ++ directCandidates logs :=
    dedup_subset _ w (by unfold buildUserIPCorrelations at hwout; exact hwout)
  obtain ⟨⟨l1, hl1, hwu⟩, _⟩ := candidates_provenance logs w hwcs
  have hinj := corrKey_inj (mkDirect e ip r) w
    ((hpipe r hr).1 e he) ((hpipe l1 hl1).1 _ hwu) hkey
  exact ⟨w, hwout, hinj.1.symm, hinj.2.symm, hconf⟩

/-- C2 (witness): the amended theorem applied to a concrete one-record
input without context bonuses. -/
theorem c2_witness :
    (∀ l ∈ [c2WitnessLog], (∀ e ∈ l.UserEmails, pipeFree e) ∧
      (∀ ip ∈ l.IPAddresses, pipeFree ip)) ∧
    ∃ c ∈ buildUserIPCorrelations [c2WitnessLog],
      c.UserIdentifier = "u@v.com" ∧ c.IPAddress = "10.1.2.3" ∧
      (0.9 : ℚ) ≤ c.ConfidenceScore :=
  ⟨by decide,
    c2_direct_pairs [c2WitnessLog] (by decide) c2WitnessLog
      (List.mem_cons_self _ _) "u@v.com" (by decide) "10.1.2.3" (by decide)⟩

/-- C3: the temporal grouper sorts ascending and walks once, left to right;
every emitted group is nonempty and each member lies within the window of
the group's first (anchor) record; on the unsorted records at minutes
20, 2, 0, 4 with a 5-minute window it yields exactly the groups
[0, 2, 4] and [20]. -/
theorem c3_temporal_grouping :
    (∀ window : Int, 0 ≤ window → ∀ logs : List NormalizedLog,
      ∀ g ∈ groupLogsByTime logs window,
      ∃ a u, g = a :: u ∧ ∀ x ∈ g, x.Timestamp - a.Timestamp ≤ window) ∧
    groupLogsByTime [c3Log20, c3Log2, c3Log0, c3Log4] (5 * minuteNs) =
      [[c3Log0, c3Log2, c3Log4], [c3Log20]] := by
  constructor
  · intro w hw logs g hg
    unfold groupLogsByTime at hg
    cases hs : bubbleSort logs with
    | nil => rw [hs] at hg; simp at hg
    | cons f rest =>
        rw [hs] at hg
        refine groupPass_anchored rest w f [] hw ?_ g hg
        intro x hx
        rcases List.mem_singleton.mp hx with rfl
        simpa using hw
  · decide

/-- C3 (witness): the anchor property instantiated on the concrete group
[0, 2, 4] produced from the unsorted four-record input. -/
theorem c3_witness :
    ((0 : Int) ≤ 5 * minuteNs) ∧
    ∃ a u, [c3Log0, c3Log2, c3Log4] = a :: u ∧
      ∀ x ∈ [c3Log0, c3Log2, c3Log4],
        x.Timestamp - a.Timestamp ≤ 5 * minuteNs :=
  ⟨by decide,
    c3_temporal_grouping.1 (5 * minuteNs) (by decide)
      [c3Log20, c3Log2, c3Log0, c3Log4] [c3Log0, c3Log2, c3Log4] (by decide)⟩

theorem cap_eq_min (x : ℚ) : (if x > 1 then (1 : ℚ) else x) = min 1 x := by
  rcases le_or_lt x 1 with h | h
  · rw [if_neg (not_lt.mpr h), min_eq_right h]
  · rw [if_pos h, min_eq_left (le_of_lt h)]

/-- C4 (counterexample): records exactly `2^63` ns apart with the
identity side earlier.  `Sub` yields `minDuration`, whose int64 negation
wraps back to `minDuration`, still negative, so the `≤ 1 minute` branch
fires and the program scores 0.5 + 0.3, while the spec formula's time-gap
bonus for a 292-year gap is 0. -/
theorem c4_counterexample :
    calculateConfidenceScore c4FarA c4FarB = 0.8 ∧
    specConfidenceScore c4FarA c4FarB = 0.5 ∧ (0.8 : ℚ) ≠ 0.5 := by
  refine ⟨by decide, by decide, by decide⟩

/-- C4 (amended): whenever the identity-side record is less than `2^63` ns
earlier than the address-side record (so `Sub` does not saturate to
`minDuration`), the source's pairwise confidence score equals the spec's
formula `min(1.0, 0.5 + time-gap bonus + context bonuses)`; in particular a
zero time gap always earns the 0.3 bonus.  (A positive saturation to
`maxDuration` agrees with the formula: both sides give no gap bonus.) -/
theorem c4_confidence (a b : NormalizedLog) :
    (int64Min < a.Timestamp - b.Timestamp →
      calculateConfidenceScore a b = specConfidenceScore a b) ∧
    (a.Timestamp = b.Timestamp →
      calculateConfidenceScore a b =
        min 1 (0.5 + 0.3 + specContextBonus a b)) := by
  have h1 : (1.0 : ℚ) = 1 := by norm_num
  have hmain : int64Min < a.Timestamp - b.Timestamp →
      calculateConfidenceScore a b = specConfidenceScore a b := by
    intro h
    by_cases hmax : int64Max < a.Timestamp - b.Timestamp
    · have hsub : goSubTime a.Timestamp b.Timestamp = int64Max := by
        unfold goSubTime
        rw [if_neg (not_lt.mpr (le_of_lt h)), if_pos hmax]
      have habs : (if goSubTime a.Timestamp b.Timestamp < 0 then
          goNegInt64 (goSubTime a.Timestamp b.Timestamp)
          else goSubTime a.Timestamp b.Timestamp) = int64Max := by
        rw [hsub, if_neg (by decide)]
      have habs2 : |a.Timestamp - b.Timestamp| = a.Timestamp - b.Timestamp :=
        abs_of_nonneg (by simp only [int64Max] at hmax; omega)
      have t1 : ¬(int64Max ≤ 1 * minuteNs) := by decide
      have t2 : ¬(int64Max ≤ 5 * minuteNs) := by decide
      have t3 : ¬(int64Max ≤ 15 * minuteNs) := by decide
      have s1 : ¬(a.Timestamp - b.Timestamp ≤ 1 * minuteNs) := by
        simp only [int64Max] at hmax
        simp only [minuteNs]
        omega
      have s2 : ¬(a.Timestamp - b.Timestamp ≤ 5 * minuteNs) := by
        simp only [int64Max] at hmax
        simp only [minuteNs]
        omega
      have s3 : ¬(a.Timestamp - b.Timestamp ≤ 15 * minuteNs) := by
        simp only [int64Max] at hmax
        simp only [minuteNs]
        omega
      simp only [calculateConfidenceScore, specConfidenceScore, specGapBonus,
        specContextBonus, h1, habs, habs2, if_neg t1, if_neg t2, if_neg t3,
        if_neg s1, if_neg s2, if_neg s3]
      rw [cap_eq_min]
      split_ifs <;> norm_num
    · have hsub : goSubTime a.Timestamp b.Timestamp =
          a.Timestamp - b.Timestamp := by
        unfold goSubTime
        rw [if_neg (not_lt.mpr (le_of_lt h)), if_neg hmax]
      have habs : (if goSubTime a.Timestamp b.Timestamp < 0 then
          goNegInt64 (goSubTime a.Timestamp b.Timestamp)
          else goSubTime a.Timestamp b.Timestamp) =
          |a.Timestamp - b.Timestamp| := by
        rw [hsub]
        rcases lt_or_ge (a.Timestamp - b.Timestamp) 0 with h0 | h0
        · rw [if_pos h0]
          unfold goNegInt64
          rw [if_neg (by simp only [int64Min] at h ⊢; omega), abs_of_neg h0]
        · rw [if_neg (not_lt.mpr h0), abs_of_nonneg h0]
      simp only [calculateConfidenceScore, specConfidenceScore, specGapBonus,
        specContextBonus, h1, habs]
      rw [cap_eq_min]
      split_ifs <;> norm_num
  refine ⟨hmain, fun ht => ?_⟩
  rw [hmain (by rw [ht, sub_self]; decide)]
  simp only [specConfidenceScore, specGapBonus]
  rw [ht, sub_self, abs_zero]
  norm_num [minuteNs]

/-- C4 (witness): two records with equal timestamps (difference 0, far from
saturation) and matching non-empty company and host context. -/
theorem c4_witness :
    (int64Min < c4LogA.Timestamp - c4LogB.Timestamp) ∧
    calculateConfidenceScore c4LogA c4LogB = specConfidenceScore c4LogA c4LogB ∧
    c4LogA.Timestamp = c4LogB.Timestamp ∧
    calculateConfidenceScore c4LogA c4LogB =
      min 1 (0.5 + 0.3 + specContextBonus c4LogA c4LogB) :=
  ⟨by decide, (c4_confidence c4LogA c4LogB).1 (by decide), rfl,
    (c4_confidence c4LogA c4LogB).2 rfl⟩

theorem mergedWith_fields (ko kn : UserCorrelation) :
    (mergedWith ko kn).UserIdentifier = ko.UserIdentifier ∧
    (mergedWith ko kn).IPAddress = ko.IPAddress ∧
    (mergedWith ko kn).ConfidenceScore =
      max kn.ConfidenceScore ko.ConfidenceScore ∧
    (mergedWith ko kn).SourceSystems =
      mergeSources ko.SourceSystems kn.SourceSystems ∧
    (mergedWith ko kn).CorrelationType = ko.CorrelationType ∧
    (mergedWith ko kn).FirstSeen = ko.FirstSeen ∧
    (mergedWith ko kn).LastSeen = ko.LastSeen := by
  unfold mergedWith
  by_cases hc : kn.ConfidenceScore > ko.ConfidenceScore
  · rw [if_pos hc]
    exact ⟨rfl, rfl, (max_eq_left (le_of_lt hc)).symm, rfl, rfl, rfl, rfl⟩
  · rw [if_neg hc]
    exact ⟨rfl, rfl, (max_eq_right (le_of_not_lt hc)).symm, rfl, rfl, rfl, rfl⟩

/-- C5: for a key present on both sides (each side holding at most one
correlation per key, as both the deduplicated fresh set and the
key-upserted store do), the merged output keeps the historical entry's
identity, address, method and timestamps, raises its confidence to the
maximum of the two sides and replaces its evidence sources by the union of
the two sides' sets. -/
theorem c5_merge (newCs existingCs : List UserCorrelation)
    (hn : (newCs.map corrKey).Nodup) (he : (existingCs.map corrKey).Nodup)
    (kn : UserCorrelation) (hkn : kn ∈ newCs)
    (ko : UserCorrelation) (hko : ko ∈ existingCs)
    (hkey : corrKey kn = corrKey ko) :
    ∃ c ∈ mergeCorrelations newCs existingCs,
      c.UserIdentifier = ko.UserIdentifier ∧ c.IPAddress = ko.IPAddress ∧
      c.ConfidenceScore = max kn.ConfidenceScore ko.ConfidenceScore ∧
      (∀ s, s ∈ c.SourceSystems ↔
        s ∈ ko.SourceSystems ∨ s ∈ kn.SourceSystems) ∧
      c.CorrelationType = ko.CorrelationType ∧
      c.FirstSeen = ko.FirstSeen ∧ c.LastSeen = ko.LastSeen := by
  have h0 : lookupKey (corrKey kn)
      (existingCs.foldl (fun m c => setKey (corrKey c) c m) []) = some ko := by
    rw [hkey]
    exact setFold_lookup_mem existingCs [] ko hko he
  have h1 := mergeFold_result newCs _ kn ko hkn hn h0
  have hpair := mem_of_lookupKey _ _ _ h1
  have hmem : mergedWith ko kn ∈ mergeCorrelations newCs existingCs := by
    unfold mergeCorrelations
    exact List.mem_map.mpr ⟨_, hpair, rfl⟩
  obtain ⟨hu, hip, hconf, hsrc, hty, hfs, hls⟩ := mergedWith_fields ko kn
  refine ⟨mergedWith ko kn, hmem, hu, hip, hconf, ?_, hty, hfs, hls⟩
  intro s
  rw [hsrc]
  unfold mergeSources
  rw [mem_addUnique, mem_addUnique]
  simp

/-- C5 (witness): merging a fresh correlation of confidence 0.6 with a
stored one of confidence 0.8 on the same key. -/
theorem c5_witness :
    ([c5Fresh].map corrKey).Nodup ∧ ([c5Hist].map corrKey).Nodup ∧
    corrKey c5Fresh = corrKey c5Hist ∧
    ∃ c ∈ mergeCorrelations [c5Fresh] [c5Hist],
      c.UserIdentifier = c5Hist.UserIdentifier ∧
      c.IPAddress = c5Hist.IPAddress ∧
      c.ConfidenceScore = max c5Fresh.ConfidenceScore c5Hist.ConfidenceScore ∧
      (∀ s, s ∈ c.SourceSystems ↔
        s ∈ c5Hist.SourceSystems ∨ s ∈ c5Fresh.SourceSystems) ∧
      c.CorrelationType = c5Hist.CorrelationType ∧
      c.FirstSeen = c5Hist.FirstSeen ∧ c.LastSeen = c5Hist.LastSeen :=
  ⟨by decide, by decide, by decide,
    c5_merge [c5Fresh] [c5Hist] (by decide) (by decide) c5Fresh
      (List.mem_cons_self _ _) c5Hist (List.mem_cons_self _ _) (by decide)⟩

/-- C6 (counterexample): with an empty evidence list but one correlation the
source returns 0.0 up front, while the spec's formula yields 0.1. -/
theorem c6_counterexample :
    calculateCorrelationScore [] [c6Corr] = 0 ∧
    specAggregateScore [] [c6Corr] = 0.1 ∧ (0 : ℚ) ≠ 0.1 := by
  refine ⟨by decide, by decide, by decide⟩

/-- C6 (amended): the aggregate score equals the spec's
`min(1.0, 0.1·count + confidence bonuses + source-span bonus)` whenever the
evidence-record list is nonempty; for an empty evidence list the source
returns 0.0 immediately, whatever the correlation set (in particular it is
0.0 for zero correlations and zero distinct sources, as the claim's special
case states). -/
theorem c6_aggregate :
    (∀ (logs : List NormalizedLog) (cs : List UserCorrelation),
      calculateCorrelationScore logs cs =
        if logs.length = 0 then 0 else specAggregateScore logs cs) ∧
    calculateCorrelationScore [] [] = 0 := by
  constructor
  · intro logs cs
    by_cases hl : logs.length = 0
    · rw [if_pos hl]
      unfold calculateCorrelationScore
      rw [if_pos hl]
      norm_num
    · rw [if_neg hl]
      have h1 : (1.0 : ℚ) = 1 := by norm_num
      have h0 : (0.0 : ℚ) = 0 := by norm_num
      simp only [calculateCorrelationScore, specAggregateScore, h1, h0,
        if_neg hl]
      rw [confBonus_foldl, cap_eq_min]
      congr 1
      split_ifs <;> ring
  · decide

/-- C7 (counterexample): the `seen` set is keyed on the raw match while the
lowercased match is appended, so a text containing the same identity in two
spellings yields the same lowercase string twice — the result is not
duplicate-free. -/
theorem c7_counterexample :
    extractEmails "A@b.com a@b.com" = ["a@b.com", "a@b.com"] ∧
    ¬ (extractEmails "A@b.com a@b.com").Nodup := by
  refine ⟨by decide, by decide⟩

/-- C7 (amended): identity extraction lowercases every match before
insertion (no element carries an ASCII uppercase letter) and deduplicates by
the raw (pre-lowercasing) match: the result is the lowercasing of a
duplicate-free list of matches, but two matches differing only in case
produce a repeated element. -/
theorem c7_emails (text : String) :
    extractEmails text = (addUnique [] (emailMatches text)).map lowerStr ∧
    (addUnique [] (emailMatches text)).Nodup ∧
    (∀ m ∈ addUnique [] (emailMatches text), m ∈ emailMatches text) ∧
    (∀ e ∈ extractEmails text, ∀ ch ∈ e.data,
      ¬(65 ≤ ch.toNat ∧ ch.toNat ≤ 90)) := by
  refine ⟨extractEmails_eq text, nodup_addUnique _ [] List.nodup_nil, ?_, ?_⟩
  · intro m hm
    rcases (mem_addUnique (emailMatches text) [] m).mp hm with h | h
    · simp at h
    · exact h
  · intro e he ch hch
    rw [extractEmails_eq text] at he
    obtain ⟨m, _, rfl⟩ := List.mem_map.mp he
    have hch' : ch ∈ m.data.map Char.toLower := hch
    obtain ⟨c, _, rfl⟩ := List.mem_map.mp hch'
    exact toLower_not_upper c

/-- C7 (witness): the amended theorem instantiated on a mixed-case text. -/
theorem c7_witness :
    extractEmails "Ab@cd.ef" = ["ab@cd.ef"] ∧
    "Ab@cd.ef" ∈ emailMatches "Ab@cd.ef" ∧
    (∀ ch ∈ "ab@cd.ef".data, ¬(65 ≤ ch.toNat ∧ ch.toNat ≤ 90)) :=
  ⟨by decide,
    (c7_emails "Ab@cd.ef").2.2.1 "Ab@cd.ef" (by decide),
    fun ch hch => (c7_emails "Ab@cd.ef").2.2.2 "ab@cd.ef" (by decide) ch hch⟩

/-- C8: address extraction is total (the embedding is a plain function) and
every address it returns passes `isValidIP`: it parses as a dotted-decimal
address and is neither loopback (127/8) nor unspecified (0.0.0.0);
failing pattern matches are simply absent from the result. -/
theorem c8_addresses (text ip : String) (h : ip ∈ extractIPs text) :
    isValidIP ip = true ∧
    ∃ a b c d : Nat, parseIPv4 ip = some (a, b, c, d) ∧ a ≠ 127 ∧
      ¬(a = 0 ∧ b = 0 ∧ c = 0 ∧ d = 0) := by
  have hv := extractIPs_valid text ip h
  refine ⟨hv, ?_⟩
  unfold isValidIP at hv
  cases hp : parseIPv4 ip with
  | none =>
      rw [hp] at hv
      exact absurd hv (by decide)
  | some q =>
      obtain ⟨a, b, c, d⟩ := q
      rw [hp] at hv
      have hv' : (!(a == 127) && !(a == 0 && b == 0 && c == 0 && d == 0)) = true := hv
      refine ⟨a, b, c, d, rfl, ?_, ?_⟩
      · intro ha
        subst ha
        simp at hv'
      · rintro ⟨ha, hb, hc, hd⟩
        subst ha
        subst hb
        subst hc
        subst hd
        simp at hv'

/-- C8 (witness): a concrete extraction. -/
theorem c8_witness :
    "10.0.0.1" ∈ extractIPs "src 10.0.0.1 dst 127.0.0.1" ∧
    isValidIP "10.0.0.1" = true :=
  ⟨by decide,
    (c8_addresses "src 10.0.0.1 dst 127.0.0.1" "10.0.0.1" (by decide)).1⟩

/-- C9 (counterexample): a time-proximity correlation built from two records
of the same source system lists that source twice in `evidence_sources`. -/
theorem c9_counterexample :
    ¬ ∀ c ∈ buildUserIPCorrelations [c9AddrLog, c9IdLog],
      c.SourceSystems.Nodup := by
  decide

/-- C9 (amended): `mergeSources` produces a duplicate-free union that
contains each side (so evidence sets only grow across merges), and direct
correlations in the builder's output carry a duplicate-free source list;
time-proximity builder candidates concatenate the two sides' sources
without deduplication and may repeat one. -/
theorem c9_sources :
    (∀ s1 s2 : List String, (mergeSources s1 s2).Nodup ∧
      ∀ s, s ∈ mergeSources s1 s2 ↔ s ∈ s1 ∨ s ∈ s2) ∧
    (∀ (logs : List NormalizedLog) (c : UserCorrelation),
      c ∈ buildUserIPCorrelations logs → c.CorrelationType = "direct" →
      c.SourceSystems.Nodup) := by
  constructor
  · intro s1 s2
    refine ⟨nodup_addUnique s2 _ (nodup_addUnique s1 [] List.nodup_nil), ?_⟩
    intro s
    unfold mergeSources
    rw [mem_addUnique, mem_addUnique]
    simp
  · intro logs c hc hd
    unfold buildUserIPCorrelations at hc
    have hc' := dedup_subset _ c hc
    rcases List.mem_append.mp hc' with h | h
    · obtain ⟨el, il, _, _, e, _, ip, _, rfl⟩ :=
        timeProximityCandidates_shape logs c h
      simp [mkTimeProx] at hd
    · obtain ⟨l, _, e, _, ip, _, rfl⟩ := directCandidates_shape logs c h
      simp [mkDirect]

/-- C9 (witness): the union facts on concrete lists and the direct-pass
source list of a concrete build. -/
theorem c9_witness :
    (mergeSources ["a"] ["a", "b"]).Nodup ∧
    ("b" ∈ mergeSources ["a"] ["a", "b"] ↔
      "b" ∈ ["a"] ∨ "b" ∈ ["a", "b"]) ∧
    c9WitnessCorr.SourceSystems.Nodup :=
  ⟨(c9_sources.1 ["a"] ["a", "b"]).1,
    (c9_sources.1 ["a"] ["a", "b"]).2 "b",
    c9_sources.2 [c9WitnessLog] c9WitnessCorr (by decide) (by decide)⟩

/-- C10: the normalizer's address field is exactly the whole-line extractor
result: the assignment after the structured scan discards every address the
JSON-mode key scan collected, so an address present only in a structured
field value and not matching the dotted-quad text pattern never reaches the
normalized record. -/
theorem c10_normalize (lokiLog : LokiLog) (parsed : Option JObj) :
    (NormalizeLog lokiLog parsed).IPAddresses = extractIPs lokiLog.Line := by
  cases parsed <;> rfl
